import Mathlib

/-!
A verification development for the pixel-sort engine implemented in
src/app/components/P5Sketch.tsx.  The engine is embedded shallowly:
JavaScript numbers are modelled as exact rationals, pixel tuples
[r, g, b, a, idx, key] as records, and the imperative per-line loops as
recursive functions over lists.  Definitions follow the source line by
line; the few definitions that instead follow the specification text are
marked as such in their doc comments.
-/

/-- Sort mode, from the SortOptions interface (sortMode field). -/
inductive SortMode
  | brightness
  | hue
  | saturation
  | color
  deriving DecidableEq, Repr

/-- Sort direction, from the SortOptions interface (sortDirection field). -/
inductive SortDirection
  | ascending
  | descending
  deriving DecidableEq, Repr

/-- One pixel extracted from a scan line: channels r, g, b, a together with
its byte index in the pixel plane.  Mirrors the 5-tuple pushed by the line
extraction loop of processChunk (elements 0 to 4). -/
structure Sample where
  r : ℕ
  g : ℕ
  b : ℕ
  a : ℕ
  idx : ℕ
  deriving DecidableEq, Repr

/-- A sample together with its computed sort key, mirroring the 6-element
tuple after the metric stage appended element 5. -/
structure Keyed where
  px : Sample
  key : ℚ
  deriving DecidableEq, Repr

/-- The color carried by a sample: exactly the four channels that the
write-back loop stores into the destination buffer. -/
structure RGBA where
  r : ℕ
  g : ℕ
  b : ℕ
  a : ℕ
  deriving DecidableEq, Repr

/-- Color projection of a sample. -/
def Sample.rgba (p : Sample) : RGBA := ⟨p.r, p.g, p.b, p.a⟩

/-- Color projection of a keyed sample. -/
def Keyed.rgba (k : Keyed) : RGBA := k.px.rgba

/-- The caller-supplied sort options, from the SortOptions interface.
Integer-valued sliders are modelled as naturals, real-valued knobs as
rationals. -/
structure SortOptions where
  sortMode : SortMode
  threshold : ℚ
  sortDirection : SortDirection
  sortLength : ℕ
  noiseThreshold : ℚ
  sortIntensity : ℕ
  sliceWidth : ℕ
  sortAngle : ℕ
  deriving DecidableEq, Repr

/-! ## MetricExtractor (processChunk, metric stage) -/

/-- Brightness key: the average of the three channels. -/
def brightnessKey (r g b : ℕ) : ℚ := ((r : ℚ) + g + b) / 3

/-- Hue key, from the hue branch of the metric stage: standard HSL hue in
degrees with achromatic pixels mapped to 0.  The formula is scale
invariant, so feeding 0-255 channels is harmless here. -/
def hueKey (r g b : ℕ) : ℚ :=
  let mx := max r (max g b)
  let mn := min r (min g b)
  if mx = mn then 0
  else
    let d : ℚ := (mx : ℚ) - (mn : ℚ)
    let h : ℚ :=
      if mx = r then ((g : ℚ) - (b : ℚ)) / d + (if g < b then 6 else 0)
      else if mx = g then ((b : ℚ) - (r : ℚ)) / d + 2
      else ((r : ℚ) - (g : ℚ)) / d + 4
    h * 60

/-- Saturation key, transcribed verbatim from the saturation branch: the
HSL formulas are applied directly to the 0-255 channel values, without
first normalising them to [0,1], and the result is multiplied by 100. -/
def saturationKey (r g b : ℕ) : ℚ :=
  let mx := max r (max g b)
  let mn := min r (min g b)
  let l : ℚ := ((mx : ℚ) + (mn : ℚ)) / 2
  if mx = mn then 0
  else
    let d : ℚ := (mx : ℚ) - (mn : ℚ)
    let s : ℚ := if l > 1/2 then d / (2 - (mx : ℚ) - (mn : ℚ)) else d / ((mx : ℚ) + (mn : ℚ))
    s * 100

/-- Color key, from the color branch: grayscale pixels use the red channel,
otherwise a rank of the dominant channel combined with a secondary channel
and the max-min delta. -/
def colorKey (r g b : ℕ) : ℚ :=
  let mx := max r (max g b)
  let mn := min r (min g b)
  let delta := mx - mn
  if delta = 0 then (r : ℚ)
  else
    let base : ℕ := if mx = r then 256 * 0 + g else if mx = g then 256 * 1 + b else 256 * 2 + r
    ((base + delta * 256 * 3 : ℕ) : ℚ)

/-- The sort key of a pixel; the metric stage reads only channels r, g, b
(elements 0 to 2 of the tuple). -/
def computeKey (mode : SortMode) (p : Sample) : ℚ :=
  match mode with
  | .brightness => brightnessKey p.r p.g p.b
  | .hue => hueKey p.r p.g p.b
  | .saturation => saturationKey p.r p.g p.b
  | .color => colorKey p.r p.g p.b

/-- Attach the sort key to every sample of a line. -/
def computeKeys (mode : SortMode) (line : List Sample) : List Keyed :=
  line.map (fun p => ⟨p, computeKey mode p⟩)

/-! ## NoiseSmoother (processChunk, noise reduction stage)

The source iterates over the line with forEach and mutates element 5 of
the current tuple in place, so the loop body at index i reads the already
updated value of index i-1 and the still untouched value of index i+1.
The in-place mutation is modelled with List.set. -/

/-- Fallback element for list reads that are always in bounds when they
happen; it is never reached under the interior-index guard. -/
def defaultKeyed : Keyed := ⟨⟨0, 0, 0, 0, 0⟩, 0⟩

/-- One forEach iteration of the noise reduction loop at index i. -/
def smoothStepL (t : ℚ) (l : List Keyed) (i : ℕ) : List Keyed :=
  if 0 < i ∧ i + 1 < l.length then
    let prev := l.getD (i - 1) defaultKeyed
    let cur := l.getD i defaultKeyed
    let next := l.getD (i + 1) defaultKeyed
    if |cur.key - prev.key| < t ∧ |cur.key - next.key| < t then
      l.set i { cur with key := (prev.key + cur.key + next.key) / 3 }
    else l
  else l

/-- The full single left-to-right pass of the noise reduction loop. -/
def noiseSmoothList (t : ℚ) (l : List Keyed) : List Keyed :=
  (List.range l.length).foldl (smoothStepL t) l

/-! ## ThresholdPartitioner (processChunk, threshold filter stage) -/

/-- Whether a keyed sample goes to the pixelsAboveThreshold list: for the
brightness and color modes the key is compared with the raw threshold, for
hue and saturation with threshold divided by 2.55 (written 51/20). -/
def isAboveThreshold (mode : SortMode) (t : ℚ) (k : Keyed) : Bool :=
  match mode with
  | .brightness | .color => decide (k.key ≥ t)
  | .hue | .saturation => decide (k.key ≥ t / (51/20))

/-- Stable split of a line into (pixelsAboveThreshold, pixelsBelowThreshold),
as produced by the forEach pushes. -/
def partitionLine (mode : SortMode) (t : ℚ) (l : List Keyed) : List Keyed × List Keyed :=
  (l.filter (isAboveThreshold mode t), l.filter (fun k => !(isAboveThreshold mode t k)))

/-! ## SectionSorter (processChunk, sectioned sorting stage) -/

/-- The coordinate the section loop attributes to a sample:
pixelX = (pixel[4] / 4) % width.  For a horizontal line this is the
along-line x position; for a vertical line it degenerates to the constant
column index. -/
def coordOf (W : ℕ) (k : Keyed) : ℕ := (k.px.idx / 4) % W

/-- The JavaScript stable sort with the key comparator of the source:
ascending uses valueA - valueB, descending uses valueB - valueA. -/
def sortByKey (dir : SortDirection) (l : List Keyed) : List Keyed :=
  match dir with
  | .ascending => l.mergeSort (fun a b => decide (a.key ≤ b.key))
  | .descending => l.mergeSort (fun a b => decide (b.key ≤ a.key))

/-- The window of one section step: active samples whose coordinate lies in
[x, sectionEnd) with sectionEnd = min (x + sortLength) width. -/
def sectionWindow (W L : ℕ) (above : List Keyed) (x : ℕ) : List Keyed :=
  above.filter (fun p => decide (x ≤ coordOf W p ∧ coordOf W p < min (x + L) W))

/-- Intensity-limited sorting of one window: with intensity below 100 only
the leading floor(length * intensity / 100) samples are sorted and the rest
keep their original order; otherwise the whole window is sorted. -/
def sortSection (dir : SortDirection) (S : ℕ) (sect : List Keyed) : List Keyed :=
  if S < 100 then
    let cnt := sect.length * S / 100
    sortByKey dir (sect.take cnt) ++ sect.drop cnt
  else sortByKey dir sect

/-- The unsorted gap emitted after a window when x + sortLength < width:
active samples with coordinate in [sectionEnd, x + sortLength + sliceWidth). -/
def gapPixels (W L G : ℕ) (above : List Keyed) (x : ℕ) : List Keyed :=
  if x + L < W then
    above.filter (fun p => decide (min (x + L) W ≤ coordOf W p ∧ coordOf W p < x + (L + G)))
  else []

/-- Everything one iteration of the section loop appends to sortedSections. -/
def sectionEmit (W L G S : ℕ) (dir : SortDirection) (above : List Keyed) (x : ℕ) : List Keyed :=
  sortSection dir S (sectionWindow W L above x) ++ gapPixels W L G above x

/-- The section loop itself: starting from x, step by sortLength + sliceWidth
while x < width.  The fuel argument bounds the number of iterations; the
source loop has no such bound and does not terminate when the step is 0. -/
def sectionWalkAux (W L G S : ℕ) (dir : SortDirection) (above : List Keyed) :
    ℕ → ℕ → List Keyed
  | 0, _ => []
  | fuel + 1, x =>
    if x < W then
      sectionEmit W L G S dir above x ++ sectionWalkAux W L G S dir above fuel (x + (L + G))
    else []

/-- The complete sortedSections list of one line: the section loop run from
x = 0.  Width many iterations are enough fuel whenever the step is
positive. -/
def sectionWalk (W L G S : ℕ) (dir : SortDirection) (above : List Keyed) : List Keyed :=
  sectionWalkAux W L G S dir above W 0

/-! ## LineWriter (processChunk, write-back stage) -/

/-- Write-back of the concatenated sequence onto one scan line: position i
of the line receives element i of the row when it exists, and keeps its
prior buffer content otherwise (the source skips the write when
sortedRow[i] is undefined). -/
def writeLine : List RGBA → List RGBA → List RGBA
  | [], _ => []
  | _o :: orig, c :: row => c :: writeLine orig row
  | o :: orig, [] => o :: writeLine orig []

/-! ## Line extraction and the per-line pipeline -/

/-- Extraction of one scan line from the working buffer, whose byte plane is
modelled as a function from byte index to channel value.  Horizontal lines
read (line * width + i) * 4, vertical lines (i * width + line) * 4. -/
def extractLine (img : ℕ → ℕ) (W H : ℕ) (isH : Bool) (line : ℕ) : List Sample :=
  (List.range (if isH then W else H)).map (fun i =>
    let idx := if isH then (line * W + i) * 4 else (i * W + line) * 4
    ⟨img idx, img (idx + 1), img (idx + 2), img (idx + 3), idx⟩)

/-- The full per-line pipeline of processChunk: keys, optional noise
reduction, threshold partition, sectioned sorting, and the concatenation
pixelsBelowThreshold ++ sortedSections that the write-back consumes. -/
def processLine (mode : SortMode) (dir : SortDirection) (t noiseT : ℚ)
    (S L G W : ℕ) (line : List Sample) : List Keyed :=
  let keyed := computeKeys mode line
  let smoothed := if noiseT > 0 then noiseSmoothList noiseT keyed else keyed
  let parts := partitionLine mode t smoothed
  parts.2 ++ sectionWalk W L G S dir parts.1

/-! ## ChunkScheduler (startPixelSort and processChunk control flow) -/

/-- Orientation test of processChunk:
isHorizontal = Math.abs(sortAngle % 180) === 90.  The slider only produces
0, 90 or 180, so the angle is modelled as a natural number. -/
def isHorizontalAngle (sortAngle : ℕ) : Bool := sortAngle % 180 == 90

/-- maxLines of processChunk: the height for horizontal scanning (rows),
the width for vertical scanning (columns). -/
def maxLinesFor (isH : Bool) (W H : ℕ) : ℕ := if isH then H else W

/-- The hard-coded chunk size of startPixelSort (chunkSize = 10). -/
def chunkSizeConst : ℕ := 10

/-- One chunk of the scheduler loop, publishing progress after each chunk:
endLine = min (currentLine + chunk) maxLines, progress =
endLine / maxLines * 100, and the loop reschedules while endLine < maxLines.
The fuel bounds the recursion; maxLines + 1 is enough for a positive chunk
size. -/
def schedulerAux (chunk maxL : ℕ) : ℕ → ℕ → List ℚ
  | 0, _ => []
  | fuel + 1, cur =>
    let endL := min (cur + chunk) maxL
    let prog : ℚ := (endL : ℚ) / (maxL : ℚ) * 100
    if endL < maxL then prog :: schedulerAux chunk maxL fuel endL
    else [prog]

/-- The list of progress values published by a whole run. -/
def schedulerRun (chunk maxL : ℕ) : List ℚ :=
  schedulerAux chunk maxL (maxL + 1) 0

/-- Number of chunks a run of maxL lines needs with a positive chunk size. -/
def numChunks (chunk maxL : ℕ) : ℕ := (maxL - 1) / chunk + 1

/-- Whether startPixelSort proceeds: the only guard in the source is the
early return when no image is loaded; the options are never inspected. -/
def startPixelSortProceeds (hasImage : Bool) (_opts : SortOptions) : Bool := hasImage

/-! ## Run supersession model (handlePixelSortClick and the setTimeout chain)

The published state is modelled by the identity of the run whose buffer
p.sortedImg currently references, the last value passed to setSortProgress,
and the queue of pending setTimeout continuations. -/

/-- A pending processChunk continuation: the run it belongs to, its captured
currentLine, and its maxLines. -/
structure ChunkTask where
  run : ℕ
  cur : ℕ
  maxL : ℕ
  deriving DecidableEq, Repr

/-- The observable engine state. -/
structure EngineState where
  published : Option ℕ
  progress : ℚ
  tasks : List ChunkTask
  nextRun : ℕ
  deriving DecidableEq, Repr

/-- Executing one processChunk body: it unconditionally publishes its own
buffer and progress (the source has no generation or token check) and
appends its continuation to the timer queue while unfinished. -/
def execChunk (st : EngineState) (c : ChunkTask) : EngineState :=
  let endL := min (c.cur + chunkSizeConst) c.maxL
  { st with
    published := some c.run
    progress := (endL : ℚ) / (c.maxL : ℚ) * 100
    tasks := st.tasks ++ (if endL < c.maxL then [⟨c.run, endL, c.maxL⟩] else []) }

/-- handlePixelSortClick followed by startPixelSort: reset the published
image and progress, then run the first chunk of a fresh run synchronously.
Pending tasks of earlier runs are left in the queue untouched. -/
def startRun (maxL : ℕ) (st : EngineState) : EngineState :=
  let st1 : EngineState := { st with published := none, progress := 0 }
  let st2 := execChunk st1 ⟨st.nextRun, 0, maxL⟩
  { st2 with nextRun := st.nextRun + 1 }

/-- The event loop resuming the oldest pending setTimeout continuation. -/
def runPendingTask (st : EngineState) : EngineState :=
  match st.tasks with
  | [] => st
  | c :: rest => execChunk { st with tasks := rest } c

/-- The initial engine state. -/
def engineInit : EngineState := ⟨none, 0, [], 0⟩

/-! ## Definitions following the specification text -/

/-- Modelled from the spec: standard HSL saturation of an RGB pixel with
0-255 channels, scaled to [0,100].  The channels are normalised to [0,1]
before the HSL formulas are applied. -/
def hslSaturation100 (r g b : ℕ) : ℚ :=
  let rq : ℚ := (r : ℚ) / 255
  let gq : ℚ := (g : ℚ) / 255
  let bq : ℚ := (b : ℚ) / 255
  let mx : ℚ := max rq (max gq bq)
  let mn : ℚ := min rq (min gq bq)
  if mx = mn then 0
  else
    let d := mx - mn
    let l := (mx + mn) / 2
    (if l > 1/2 then d / (2 - mx - mn) else d / (mx + mn)) * 100

/-- Modelled from the spec: the single-pass, non-cascaded noise smoothing
in which both neighbour comparisons and the mean use the original
pre-smoothing values. -/
def noiseSmoothNonCascaded (t : ℚ) (l : List Keyed) : List Keyed :=
  (List.range l.length).map (fun i =>
    let k := l.getD i defaultKeyed
    if 0 < i ∧ i + 1 < l.length then
      let prev := l.getD (i - 1) defaultKeyed
      let next := l.getD (i + 1) defaultKeyed
      if |k.key - prev.key| < t ∧ |k.key - next.key| < t then
        { k with key := (prev.key + k.key + next.key) / 3 }
      else k
    else k)

/-- Modelled from the spec: one full stable sort of the active subsequence
by sort key in the configured direction. -/
def fullStableSort (dir : SortDirection) (l : List Keyed) : List Keyed :=
  match dir with
  | .ascending => l.mergeSort (fun a b => decide (a.key ≤ b.key))
  | .descending => l.mergeSort (fun a b => decide (b.key ≤ a.key))

/-- The along-line position of a sample of a vertical scan line, inverting
the extraction byte-index formula idx = (i * width + line) * 4. -/
def alongCoordV (W : ℕ) (k : Keyed) : ℕ := (k.px.idx / 4) / W

/-! ## Lemmas about the noise smoothing pass -/

/-- Partial run of the smoothing pass over the first m indices. -/
def smoothPrefix (t : ℚ) (l : List Keyed) (m : ℕ) : List Keyed :=
  (List.range m).foldl (smoothStepL t) l

theorem smoothPrefix_succ (t : ℚ) (l : List Keyed) (m : ℕ) :
    smoothPrefix t l (m + 1) = smoothStepL t (smoothPrefix t l m) m := by
  unfold smoothPrefix
  rw [List.range_succ, List.foldl_append]
  rfl

theorem smoothStepL_length (t : ℚ) (l : List Keyed) (i : ℕ) :
    (smoothStepL t l i).length = l.length := by
  unfold smoothStepL
  split
  · dsimp only
    split
    · exact List.length_set ..
    · rfl
  · rfl

theorem smoothStepL_getElem?_ne (t : ℚ) (l : List Keyed) (i j : ℕ) (hij : i ≠ j) :
    (smoothStepL t l i)[j]? = l[j]? := by
  unfold smoothStepL
  split
  · dsimp only
    split
    · simp [List.getElem?_set, hij]
    · rfl
  · rfl

theorem smoothStepL_guard_false (t : ℚ) (l : List Keyed) (i : ℕ)
    (h : ¬(0 < i ∧ i + 1 < l.length)) : smoothStepL t l i = l := by
  unfold smoothStepL
  rw [if_neg h]

theorem smoothStepL_getElem?_px (t : ℚ) (l : List Keyed) (i j : ℕ) :
    ((smoothStepL t l i)[j]?).map Keyed.px = (l[j]?).map Keyed.px := by
  rcases eq_or_ne i j with rfl | hij
  · unfold smoothStepL
    split
    · rename_i hg
      dsimp only
      split
      · have hi : i < l.length := by omega
        simp [List.getElem?_set, hi, List.getD_eq_getElem?_getD, List.getElem?_eq_getElem hi]
      · rfl
    · rfl
  · rw [smoothStepL_getElem?_ne t l i j hij]

theorem smoothPrefix_length (t : ℚ) (l : List Keyed) (m : ℕ) :
    (smoothPrefix t l m).length = l.length := by
  induction m with
  | zero => rfl
  | succ m ih => rw [smoothPrefix_succ, smoothStepL_length, ih]

theorem smoothPrefix_getElem?_ge (t : ℚ) (l : List Keyed) {m j : ℕ} (h : m ≤ j) :
    (smoothPrefix t l m)[j]? = l[j]? := by
  induction m with
  | zero => rfl
  | succ m ih =>
    rw [smoothPrefix_succ, smoothStepL_getElem?_ne _ _ _ _ (by omega), ih (by omega)]

theorem smoothPrefix_getElem?_stable (t : ℚ) (l : List Keyed) {m j : ℕ} (h : j < m) :
    (smoothPrefix t l m)[j]? = (smoothPrefix t l (j + 1))[j]? := by
  induction m with
  | zero => omega
  | succ m ih =>
    rcases Nat.lt_or_ge j m with hlt | hge
    · rw [smoothPrefix_succ, smoothStepL_getElem?_ne _ _ _ _ (by omega), ih hlt]
    · have hjm : j = m := by omega
      subst hjm
      rfl

theorem smoothPrefix_getElem?_px (t : ℚ) (l : List Keyed) (m j : ℕ) :
    ((smoothPrefix t l m)[j]?).map Keyed.px = (l[j]?).map Keyed.px := by
  induction m with
  | zero => rfl
  | succ m ih => rw [smoothPrefix_succ, smoothStepL_getElem?_px, ih]

theorem smoothPrefix_getElem?_zero (t : ℚ) (l : List Keyed) (m : ℕ) :
    (smoothPrefix t l m)[0]? = l[0]? := by
  induction m with
  | zero => rfl
  | succ m ih =>
    rw [smoothPrefix_succ]
    rcases Nat.eq_zero_or_pos m with rfl | hm
    · rw [smoothStepL_guard_false _ _ _ (by omega)]
      exact ih
    · rw [smoothStepL_getElem?_ne _ _ _ _ (by omega), ih]

theorem smoothPrefix_getElem?_last (t : ℚ) (l : List Keyed) (m : ℕ) :
    (smoothPrefix t l m)[l.length - 1]? = l[l.length - 1]? := by
  induction m with
  | zero => rfl
  | succ m ih =>
    rw [smoothPrefix_succ]
    rcases eq_or_ne m (l.length - 1) with rfl | hne
    · rw [smoothStepL_guard_false _ _ _ (by rw [smoothPrefix_length]; omega)]
      exact ih
    · rw [smoothStepL_getElem?_ne _ _ _ _ hne, ih]

theorem noiseSmoothList_eq_smoothPrefix (t : ℚ) (l : List Keyed) :
    noiseSmoothList t l = smoothPrefix t l l.length := rfl

theorem noiseSmoothList_map_px (t : ℚ) (l : List Keyed) :
    (noiseSmoothList t l).map Keyed.px = l.map Keyed.px := by
  apply List.ext_get?
  intro n
  simp only [List.get?_eq_getElem?, List.getElem?_map]
  rw [noiseSmoothList_eq_smoothPrefix]
  exact smoothPrefix_getElem?_px t l l.length n

/-! ## Claim C4 -/

/-- Concrete line of sort keys 0, 3, 4, 5 on which the cascaded source
smoothing and a non-cascaded single pass disagree at threshold 4. -/
def c4Line : List Keyed :=
  [⟨⟨0, 0, 0, 0, 0⟩, 0⟩, ⟨⟨0, 0, 0, 0, 4⟩, 3⟩, ⟨⟨0, 0, 0, 0, 8⟩, 4⟩, ⟨⟨0, 0, 0, 0, 12⟩, 5⟩]

/-- Claim C4, counterexample: on the keys 0, 3, 4, 5 with threshold 4 the
source smoothing replaces the key 4 by 34/9, because the left-neighbour
comparison and the mean use the already smoothed value 7/3 of index 1,
whereas the claim mandates the mean of the original values 3, 4, 5,
namely 4.  The noise reduction loop is therefore cascaded, not the
non-cascaded pass of the claim. -/
theorem c4_counterexample :
    noiseSmoothList 4 c4Line ≠ noiseSmoothNonCascaded 4 c4Line ∧
    (noiseSmoothList 4 c4Line).map Keyed.key = [0, 7/3, 34/9, 5] ∧
    (noiseSmoothNonCascaded 4 c4Line).map Keyed.key = [0, 7/3, 4, 5] := by
  have h1 : (noiseSmoothList 4 c4Line).map Keyed.key = [0, 7/3, 34/9, 5] := by
    norm_num [noiseSmoothList, c4Line, smoothStepL, defaultKeyed, List.range_succ, abs]
  have h2 : (noiseSmoothNonCascaded 4 c4Line).map Keyed.key = [0, 7/3, 4, 5] := by
    norm_num [noiseSmoothNonCascaded, c4Line, defaultKeyed, List.range_succ, abs]
  refine ⟨fun hcontra => ?_, h1, h2⟩
  rw [hcontra, h2] at h1
  norm_num at h1

/-- Claim C4, amended: the noise reduction pass keeps the first and last
keys and the length, and at each interior index i it compares the original
key with the ALREADY SMOOTHED key of index i-1 and with the original key
of index i+1, replacing it by the mean of those three values when both
distances are below the threshold - a cascaded left-to-right pass, not the
non-cascaded pass of the claim. -/
theorem c4_amended_theorem (t : ℚ) (l : List Keyed) (i : ℕ) (prev cur next : Keyed)
    (h0 : 0 < i) (h1 : i + 1 < l.length)
    (hp : (noiseSmoothList t l)[i - 1]? = some prev)
    (hc : l[i]? = some cur) (hn : l[i + 1]? = some next) :
    (noiseSmoothList t l).length = l.length ∧
    (noiseSmoothList t l)[0]? = l[0]? ∧
    (noiseSmoothList t l)[l.length - 1]? = l[l.length - 1]? ∧
    (noiseSmoothList t l)[i]? =
      some (if |cur.key - prev.key| < t ∧ |cur.key - next.key| < t then
              { cur with key := (prev.key + cur.key + next.key) / 3 }
            else cur) := by
  have hi : i < l.length := by omega
  refine ⟨?_, ?_, ?_, ?_⟩
  · rw [noiseSmoothList_eq_smoothPrefix, smoothPrefix_length]
  · rw [noiseSmoothList_eq_smoothPrefix, smoothPrefix_getElem?_zero]
  · rw [noiseSmoothList_eq_smoothPrefix, smoothPrefix_getElem?_last]
  · have hstep : (noiseSmoothList t l)[i]? = (smoothStepL t (smoothPrefix t l i) i)[i]? := by
      rw [noiseSmoothList_eq_smoothPrefix, smoothPrefix_getElem?_stable t l hi, smoothPrefix_succ]
    have hprev : (smoothPrefix t l i)[i - 1]? = some prev := by
      have hstab := smoothPrefix_getElem?_stable t l (show i - 1 < l.length by omega)
      have hidx : (i - 1) + 1 = i := by omega
      rw [noiseSmoothList_eq_smoothPrefix, hstab, hidx] at hp
      exact hp
    have hcur : (smoothPrefix t l i)[i]? = some cur := by
      rw [smoothPrefix_getElem?_ge t l (le_refl i), hc]
    have hnext : (smoothPrefix t l i)[i + 1]? = some next := by
      rw [smoothPrefix_getElem?_ge t l (by omega), hn]
    have hgdp : (smoothPrefix t l i).getD (i - 1) defaultKeyed = prev := by
      rw [List.getD_eq_getElem?_getD, hprev]
      rfl
    have hgdc : (smoothPrefix t l i).getD i defaultKeyed = cur := by
      rw [List.getD_eq_getElem?_getD, hcur]
      rfl
    have hgdn : (smoothPrefix t l i).getD (i + 1) defaultKeyed = next := by
      rw [List.getD_eq_getElem?_getD, hnext]
      rfl
    rw [hstep]
    unfold smoothStepL
    rw [if_pos (by rw [smoothPrefix_length]; exact ⟨h0, h1⟩)]
    simp only [hgdp, hgdc, hgdn]
    by_cases hcond : |cur.key - prev.key| < t ∧ |cur.key - next.key| < t
    · rw [if_pos hcond, if_pos hcond]
      have hilen : i < (smoothPrefix t l i).length := by rw [smoothPrefix_length]; omega
      simp [List.getElem?_set, hilen]
    · rw [if_neg hcond, if_neg hcond, hcur]

/-- Claim C4, witness: the amended characterisation applied to the concrete
keys 0, 3, 4, 5 with threshold 4 at the interior index 2, where the already
smoothed left neighbour has key 7/3. -/
theorem c4_witness :
    ((0 : ℕ) < 2 ∧ 2 + 1 < c4Line.length ∧
      (noiseSmoothList 4 c4Line)[2 - 1]? = some ⟨⟨0, 0, 0, 0, 4⟩, 7/3⟩ ∧
      c4Line[2]? = some ⟨⟨0, 0, 0, 0, 8⟩, 4⟩ ∧
      c4Line[2 + 1]? = some ⟨⟨0, 0, 0, 0, 12⟩, 5⟩) ∧
    ((noiseSmoothList 4 c4Line).length = c4Line.length ∧
      (noiseSmoothList 4 c4Line)[0]? = c4Line[0]? ∧
      (noiseSmoothList 4 c4Line)[c4Line.length - 1]? = c4Line[c4Line.length - 1]? ∧
      (noiseSmoothList 4 c4Line)[2]? =
        some (if |(⟨⟨0, 0, 0, 0, 8⟩, 4⟩ : Keyed).key - (⟨⟨0, 0, 0, 0, 4⟩, 7/3⟩ : Keyed).key| < 4 ∧
                 |(⟨⟨0, 0, 0, 0, 8⟩, 4⟩ : Keyed).key - (⟨⟨0, 0, 0, 0, 12⟩, 5⟩ : Keyed).key| < 4 then
                { (⟨⟨0, 0, 0, 0, 8⟩, 4⟩ : Keyed) with
                  key := ((⟨⟨0, 0, 0, 0, 4⟩, 7/3⟩ : Keyed).key + (⟨⟨0, 0, 0, 0, 8⟩, 4⟩ : Keyed).key +
                          (⟨⟨0, 0, 0, 0, 12⟩, 5⟩ : Keyed).key) / 3 }
              else ⟨⟨0, 0, 0, 0, 8⟩, 4⟩)) :=
  ⟨⟨by decide, by decide,
      by norm_num [noiseSmoothList, c4Line, smoothStepL, defaultKeyed, List.range_succ, abs],
      by norm_num [c4Line], by norm_num [c4Line]⟩,
    c4_amended_theorem 4 c4Line 2 ⟨⟨0, 0, 0, 0, 4⟩, 7/3⟩ ⟨⟨0, 0, 0, 0, 8⟩, 4⟩ ⟨⟨0, 0, 0, 0, 12⟩, 5⟩
      (by decide) (by decide)
      (by norm_num [noiseSmoothList, c4Line, smoothStepL, defaultKeyed, List.range_succ, abs])
      (by norm_num [c4Line]) (by norm_num [c4Line])⟩

/-! ## Claim C9 -/

theorem writeLine_eq_of_le (orig row : List RGBA) (h : row.length ≤ orig.length) :
    writeLine orig row = row ++ orig.drop row.length := by
  induction orig generalizing row with
  | nil =>
    have hrow : row = [] := List.eq_nil_of_length_eq_zero (by simpa using h)
    subst hrow
    rfl
  | cons o orig ih =>
    cases row with
    | nil => simpa [writeLine] using ih [] (by simp)
    | cons c row => simp [writeLine, ih row (by simpa using h)]

/-- Claim C9: when the concatenated sequence is shorter than the scan line,
the write-back stores exactly the positions covered by the sequence, every
trailing position keeps its prior working-buffer content, and the result is
total (a full line, no error). -/
theorem c9_theorem (orig row : List RGBA) (h : row.length ≤ orig.length) :
    writeLine orig row = row ++ orig.drop row.length ∧
    (writeLine orig row).length = orig.length := by
  have heq := writeLine_eq_of_le orig row h
  refine ⟨heq, ?_⟩
  rw [heq]
  simp only [List.length_append, List.length_drop]
  omega

/-- Claim C9, witness: a three pixel line receiving a one pixel sequence
keeps its two trailing pixels. -/
theorem c9_witness :
    ([⟨9, 9, 9, 9⟩] : List RGBA).length ≤ ([⟨1, 1, 1, 1⟩, ⟨2, 2, 2, 2⟩, ⟨3, 3, 3, 3⟩] : List RGBA).length ∧
    (writeLine [⟨1, 1, 1, 1⟩, ⟨2, 2, 2, 2⟩, ⟨3, 3, 3, 3⟩] [⟨9, 9, 9, 9⟩] =
        [⟨9, 9, 9, 9⟩] ++ ([⟨1, 1, 1, 1⟩, ⟨2, 2, 2, 2⟩, ⟨3, 3, 3, 3⟩] : List RGBA).drop 1 ∧
      (writeLine [⟨1, 1, 1, 1⟩, ⟨2, 2, 2, 2⟩, ⟨3, 3, 3, 3⟩] [⟨9, 9, 9, 9⟩]).length =
        ([⟨1, 1, 1, 1⟩, ⟨2, 2, 2, 2⟩, ⟨3, 3, 3, 3⟩] : List RGBA).length) :=
  ⟨by decide, c9_theorem [⟨1, 1, 1, 1⟩, ⟨2, 2, 2, 2⟩, ⟨3, 3, 3, 3⟩] [⟨9, 9, 9, 9⟩] (by decide)⟩

/-! ## Claim C2 -/

/-- Claim C2: refuted by evaluation.  For the pure red pixel (255, 0, 0) the
saturation branch computes l = 127.5 on the unnormalised 0-255 channels,
takes the l above one half branch, divides by the negative quantity
2 - 255 - 0 and publishes the key -25500/253, about -100.8.  Standard HSL
saturation scaled to [0,100] is 100 for this pixel, so the key is neither
the standard saturation nor inside [0,100]. -/
theorem c2_code_evaluation :
    saturationKey 255 0 0 = -(25500 / 253) ∧
    saturationKey 255 0 0 < 0 ∧
    hslSaturation100 255 0 0 = 100 := by
  refine ⟨?_, ?_, ?_⟩ <;> norm_num [saturationKey, hslSaturation100]

/-! ## Claim C10 -/

/-- Claim C10: for every sort mode the key of a pixel depends only on its
r, g and b channels, so two samples with equal r, g, b and different alpha
values receive equal keys and are partitioned identically by the threshold
filter. -/
theorem c10_theorem (mode : SortMode) (t : ℚ) (p q : Sample)
    (hr : p.r = q.r) (hg : p.g = q.g) (hb : p.b = q.b) :
    computeKey mode p = computeKey mode q ∧
    isAboveThreshold mode t ⟨p, computeKey mode p⟩ = isAboveThreshold mode t ⟨q, computeKey mode q⟩ := by
  have hk : computeKey mode p = computeKey mode q := by
    cases mode <;> simp [computeKey, hr, hg, hb]
  refine ⟨hk, ?_⟩
  cases mode <;> simp [isAboveThreshold, hk]

/-- Claim C10, witness: two pixels with channels (10, 20, 30) whose alpha
values are 0 and 255 receive the same color-mode key and the same
partitioning decision at threshold 100. -/
theorem c10_witness :
    ((⟨10, 20, 30, 0, 0⟩ : Sample).r = (⟨10, 20, 30, 255, 4⟩ : Sample).r ∧
      (⟨10, 20, 30, 0, 0⟩ : Sample).g = (⟨10, 20, 30, 255, 4⟩ : Sample).g ∧
      (⟨10, 20, 30, 0, 0⟩ : Sample).b = (⟨10, 20, 30, 255, 4⟩ : Sample).b) ∧
    (computeKey .color ⟨10, 20, 30, 0, 0⟩ = computeKey .color ⟨10, 20, 30, 255, 4⟩ ∧
      isAboveThreshold .color 100 ⟨⟨10, 20, 30, 0, 0⟩, computeKey .color ⟨10, 20, 30, 0, 0⟩⟩ =
        isAboveThreshold .color 100 ⟨⟨10, 20, 30, 255, 4⟩, computeKey .color ⟨10, 20, 30, 255, 4⟩⟩) :=
  ⟨⟨rfl, rfl, rfl⟩, c10_theorem .color 100 ⟨10, 20, 30, 0, 0⟩ ⟨10, 20, 30, 255, 4⟩ rfl rfl rfl⟩

/-! ## Claim C5 -/

/-- Claim C5: refuted by evaluation; the source rejects nothing.  With a
loaded image, startPixelSort proceeds for the invalid configuration
sortLength = 0, sliceWidth = 0 (so sectionLength is not positive), and the
section loop of the first processed line then advances its coordinate by
sortLength + sliceWidth = 0 each iteration, so the loop guard x < width
holds after every number of iterations and the loop never terminates
(shown for width 4).  No configuration error is raised at run start. -/
theorem c5_code_evaluation :
    startPixelSortProceeds true ⟨.brightness, 127, .ascending, 0, 10, 100, 0, 0⟩ = true ∧
    ∀ n : ℕ, (fun x => x + (0 + 0))^[n] 0 < 4 := by
  refine ⟨rfl, fun n => ?_⟩
  have h : (fun x : ℕ => x + (0 + 0))^[n] 0 = 0 := Function.iterate_fixed rfl n
  rw [h]
  omega

/-! ## Claim C7 -/

/-- Claim C7, counterexample: start a 20 line run (run 0), start a second
20 line run (run 1) while the first is pending, then let the event loop
resume the oldest pending continuation.  That continuation belongs to the
superseded run 0 and overwrites the published image with the run 0 buffer
and the published progress with the run 0 progress: the superseded run
writes again after the new start, so no generation check invalidates it. -/
theorem c7_counterexample :
    (startRun 20 (startRun 20 engineInit)).published = some 1 ∧
    (startRun 20 (startRun 20 engineInit)).progress = 50 ∧
    (runPendingTask (startRun 20 (startRun 20 engineInit))).published = some 0 ∧
    (runPendingTask (startRun 20 (startRun 20 engineInit))).progress = 100 := by
  refine ⟨rfl, ?_, rfl, ?_⟩ <;>
    norm_num [startRun, execChunk, runPendingTask, engineInit, chunkSizeConst]

/-- Claim C7, amended: the scheduler has no generation or token check.  A
resumed chunk always publishes the buffer and progress of the run that
created it, whatever happened since; and a new start leaves the pending
continuations of earlier runs in the timer queue instead of invalidating
them.  Mutual exclusion is provided only by the interface, which disables
the sort button while a run is in flight. -/
theorem c7_amended_theorem (st : EngineState) (c : ChunkTask) (m : ℕ) :
    (execChunk st c).published = some c.run ∧
    (execChunk st c).progress =
      ((min (c.cur + chunkSizeConst) c.maxL : ℕ) : ℚ) / (c.maxL : ℚ) * 100 ∧
    (runPendingTask { st with tasks := c :: st.tasks }).published = some c.run ∧
    (startRun m st).tasks =
      st.tasks ++ (if min chunkSizeConst m < m then [⟨st.nextRun, min chunkSizeConst m, m⟩] else []) := by
  refine ⟨rfl, rfl, rfl, ?_⟩
  simp [startRun, execChunk]

/-! ## Claim C1 -/

/-- Claim C1, counterexample: for a 2 by 3 image (width 2, height 3)
sorted at angle 0, which is the vertical orientation scanning columns, the
source sets maxLines to the width 2, not to the height 3 required by the
claim. -/
theorem c1_counterexample : maxLinesFor (isHorizontalAngle 0) 2 3 ≠ 3 := by decide

theorem schedulerAux_closed (chunk m : ℕ) (hc : 1 ≤ chunk) :
    ∀ fuel cur, cur < m → (m - cur - 1) / chunk + 1 ≤ fuel →
      schedulerAux chunk m fuel cur =
        (List.range ((m - cur - 1) / chunk + 1)).map
          (fun k => ((min (cur + (k + 1) * chunk) m : ℕ) : ℚ) / (m : ℚ) * 100) := by
  intro fuel
  induction fuel with
  | zero => intro cur h1 h2; exact absurd h2 (Nat.not_succ_le_zero _)
  | succ fuel ih =>
    intro cur hcur hfuel
    have hunfold : schedulerAux chunk m (fuel + 1) cur =
        (if min (cur + chunk) m < m
          then ((min (cur + chunk) m : ℕ) : ℚ) / (m : ℚ) * 100 ::
            schedulerAux chunk m fuel (min (cur + chunk) m)
          else [((min (cur + chunk) m : ℕ) : ℚ) / (m : ℚ) * 100]) := rfl
    rcases Nat.lt_or_ge (cur + chunk) m with hlt | hge
    · have hmin : min (cur + chunk) m = cur + chunk := Nat.min_eq_left (by omega)
      have hdiv : (m - cur - 1) / chunk = (m - (cur + chunk) - 1) / chunk + 1 := by
        have h1 : m - cur - 1 = (m - (cur + chunk) - 1) + chunk := by omega
        rw [h1, Nat.add_div_right _ (by omega)]
      rw [hunfold, if_pos (by omega : min (cur + chunk) m < m), hmin,
        ih (cur + chunk) (by omega) (by omega), hdiv,
        List.range_succ_eq_map ((m - (cur + chunk) - 1) / chunk + 1), List.map_cons, List.map_map]
      congr 1
      · show ((cur + chunk : ℕ) : ℚ) / (m : ℚ) * 100 =
          ((min (cur + (0 + 1) * chunk) m : ℕ) : ℚ) / (m : ℚ) * 100
        rw [show cur + (0 + 1) * chunk = cur + chunk by ring, hmin]
      · refine (List.map_congr_left (fun k _ => ?_)).symm
        show ((min (cur + (Nat.succ k + 1) * chunk) m : ℕ) : ℚ) / (m : ℚ) * 100 =
          ((min (cur + chunk + (k + 1) * chunk) m : ℕ) : ℚ) / (m : ℚ) * 100
        rw [show cur + (Nat.succ k + 1) * chunk = cur + chunk + (k + 1) * chunk by
          rw [Nat.succ_eq_add_one]; ring]
    · have hdiv : (m - cur - 1) / chunk = 0 := Nat.div_eq_of_lt (by omega)
      rw [hunfold, if_neg (by omega : ¬ min (cur + chunk) m < m), hdiv]
      show [((min (cur + chunk) m : ℕ) : ℚ) / (m : ℚ) * 100] =
        [((min (cur + (0 + 1) * chunk) m : ℕ) : ℚ) / (m : ℚ) * 100]
      rw [show cur + (0 + 1) * chunk = cur + chunk by ring]

/-- Claim C1, amended: the total line count is the width for the vertical
orientation (angle 0, scanning columns) and the height for the horizontal
orientation (angle 90, scanning rows) - the reverse of the claim - and a
run over totalLines lines with a positive chunk size publishes after its
k-th chunk exactly the progress min((k+1) * chunk, totalLines) divided by
totalLines times 100, that is processedLines / totalLines * 100. -/
theorem c1_amended_theorem (W H chunk m : ℕ) (hc : 1 ≤ chunk) (hm : 1 ≤ m) :
    maxLinesFor (isHorizontalAngle 0) W H = W ∧
    maxLinesFor (isHorizontalAngle 90) W H = H ∧
    schedulerRun chunk m =
      (List.range (numChunks chunk m)).map
        (fun k => ((min ((k + 1) * chunk) m : ℕ) : ℚ) / (m : ℚ) * 100) := by
  refine ⟨rfl, rfl, ?_⟩
  unfold schedulerRun numChunks
  have hfuel : (m - 0 - 1) / chunk + 1 ≤ m + 1 := by
    have := Nat.div_le_self (m - 0 - 1) chunk
    omega
  rw [schedulerAux_closed chunk m hc (m + 1) 0 (by omega) hfuel]
  simp

/-- Claim C1, witness: a 2 by 3 image at the two orientations, and a run of
25 lines in chunks of 10, whose published progress values are 40, 80, 100. -/
theorem c1_witness :
    (1 ≤ 10 ∧ 1 ≤ 25) ∧
    (maxLinesFor (isHorizontalAngle 0) 2 3 = 2 ∧
      maxLinesFor (isHorizontalAngle 90) 2 3 = 3 ∧
      schedulerRun 10 25 =
        (List.range (numChunks 10 25)).map
          (fun k => ((min ((k + 1) * 10) 25 : ℕ) : ℚ) / (25 : ℚ) * 100)) :=
  ⟨⟨by decide, by decide⟩, c1_amended_theorem 2 3 10 25 (by decide) (by decide)⟩

/-! ## Permutation lemmas for the section sorter -/

theorem filter_union_perm (p q : Keyed → Bool) (l : List Keyed)
    (h : ∀ a, p a = true → q a = false) :
    (l.filter p ++ l.filter q).Perm (l.filter (fun a => p a || q a)) := by
  induction l with
  | nil => simp
  | cons a l ih =>
    cases hpa : p a
    · cases hqa : q a
      · rw [List.filter_cons_of_neg (by simp [hpa]), List.filter_cons_of_neg (by simp [hqa]),
          List.filter_cons_of_neg (by simp [hpa, hqa])]
        exact ih
      · rw [List.filter_cons_of_neg (by simp [hpa]), List.filter_cons_of_pos (by simp [hqa]),
          List.filter_cons_of_pos (by simp [hpa, hqa])]
        exact List.perm_middle.trans (ih.cons a)
    · have hqa : q a = false := h a hpa
      rw [List.filter_cons_of_pos (by simp [hpa]), List.filter_cons_of_neg (by simp [hqa]),
        List.filter_cons_of_pos (by simp [hpa]), List.cons_append]
      exact ih.cons a

theorem sortByKey_perm (dir : SortDirection) (l : List Keyed) : (sortByKey dir l).Perm l := by
  cases dir <;> exact List.mergeSort_perm l _

theorem sortSection_perm (dir : SortDirection) (S : ℕ) (sect : List Keyed) :
    (sortSection dir S sect).Perm sect := by
  unfold sortSection
  split
  · refine ((sortByKey_perm dir _).append_right _).trans ?_
    rw [List.take_append_drop]
  · exact sortByKey_perm dir sect

theorem sectionEmit_perm (W L G S : ℕ) (dir : SortDirection) (above : List Keyed) (x : ℕ)
    (hcoord : ∀ k ∈ above, coordOf W k < W) :
    (sectionEmit W L G S dir above x).Perm
      (above.filter (fun k => decide (x ≤ coordOf W k ∧ coordOf W k < x + (L + G)))) := by
  unfold sectionEmit gapPixels sectionWindow
  by_cases h : x + L < W
  · rw [if_pos h]
    have hmin : min (x + L) W = x + L := Nat.min_eq_left (le_of_lt h)
    simp only [hmin]
    have hdisj : ∀ k, decide (x ≤ coordOf W k ∧ coordOf W k < x + L) = true →
        decide (x + L ≤ coordOf W k ∧ coordOf W k < x + (L + G)) = false := by
      intro k hk
      rw [decide_eq_true_eq] at hk
      rw [decide_eq_false_iff_not]
      omega
    have hfe : above.filter (fun k => decide (x ≤ coordOf W k ∧ coordOf W k < x + L)
          || decide (x + L ≤ coordOf W k ∧ coordOf W k < x + (L + G)))
        = above.filter (fun k => decide (x ≤ coordOf W k ∧ coordOf W k < x + (L + G))) := by
      apply List.filter_congr
      intro k _
      rw [← Bool.decide_or]
      exact decide_eq_decide.mpr (by omega)
    rw [← hfe]
    exact ((sortSection_perm dir S _).append_right _).trans (filter_union_perm _ _ _ hdisj)
  · rw [if_neg h, List.append_nil]
    have hmin : min (x + L) W = W := Nat.min_eq_right (le_of_not_lt h)
    simp only [hmin]
    refine (sortSection_perm dir S _).trans ?_
    have hfe : above.filter (fun k => decide (x ≤ coordOf W k ∧ coordOf W k < W))
        = above.filter (fun k => decide (x ≤ coordOf W k ∧ coordOf W k < x + (L + G))) := by
      apply List.filter_congr
      intro k hk
      have hcw := hcoord k hk
      exact decide_eq_decide.mpr (by omega)
    rw [hfe]

theorem sectionWalkAux_succ (W L G S : ℕ) (dir : SortDirection) (above : List Keyed)
    (fuel x : ℕ) :
    sectionWalkAux W L G S dir above (fuel + 1) x =
      if x < W then
        sectionEmit W L G S dir above x ++ sectionWalkAux W L G S dir above fuel (x + (L + G))
      else [] := rfl

theorem sectionWalkAux_perm (W L G S : ℕ) (dir : SortDirection) (above : List Keyed)
    (hs : 1 ≤ L + G) (hcoord : ∀ k ∈ above, coordOf W k < W) :
    ∀ fuel x, W ≤ x + fuel →
      (sectionWalkAux W L G S dir above fuel x).Perm
        (above.filter (fun k => decide (x ≤ coordOf W k))) := by
  intro fuel
  induction fuel with
  | zero =>
    intro x hx
    have hnil : above.filter (fun k => decide (x ≤ coordOf W k)) = [] := by
      apply List.filter_eq_nil_iff.mpr
      intro k hk
      have := hcoord k hk
      simp only [decide_eq_true_eq]
      omega
    rw [show sectionWalkAux W L G S dir above 0 x = [] from rfl, hnil]
  | succ fuel ih =>
    intro x hx
    rw [sectionWalkAux_succ]
    by_cases hxW : x < W
    · rw [if_pos hxW]
      have hrec := ih (x + (L + G)) (by omega)
      have hemit := sectionEmit_perm W L G S dir above x hcoord
      refine (hemit.append hrec).trans ?_
      have hdisj : ∀ k, decide (x ≤ coordOf W k ∧ coordOf W k < x + (L + G)) = true →
          decide (x + (L + G) ≤ coordOf W k) = false := by
        intro k hk
        rw [decide_eq_true_eq] at hk
        rw [decide_eq_false_iff_not]
        omega
      have hfe : above.filter (fun k => decide (x ≤ coordOf W k ∧ coordOf W k < x + (L + G))
            || decide (x + (L + G) ≤ coordOf W k))
          = above.filter (fun k => decide (x ≤ coordOf W k)) := by
        apply List.filter_congr
        intro k _
        rw [← Bool.decide_or]
        exact decide_eq_decide.mpr (by omega)
      rw [← hfe]
      exact filter_union_perm _ _ _ hdisj
    · rw [if_neg hxW]
      have hnil : above.filter (fun k => decide (x ≤ coordOf W k)) = [] := by
        apply List.filter_eq_nil_iff.mpr
        intro k hk
        have := hcoord k hk
        simp only [decide_eq_true_eq]
        omega
      rw [hnil]

theorem sectionWalk_perm (W L G S : ℕ) (dir : SortDirection) (above : List Keyed)
    (hs : 1 ≤ L + G) (hW : 0 < W) :
    (sectionWalk W L G S dir above).Perm above := by
  have hcoord : ∀ k ∈ above, coordOf W k < W := fun k _ => Nat.mod_lt _ hW
  have h := sectionWalkAux_perm W L G S dir above hs hcoord W 0 (by omega)
  have hfe : above.filter (fun k => decide (0 ≤ coordOf W k)) = above := by
    apply List.filter_eq_self.mpr
    intro k _
    simp
  rw [hfe] at h
  exact h

/-! ## Claim C6 -/

theorem computeKeys_map_px (mode : SortMode) (line : List Sample) :
    (computeKeys mode line).map Keyed.px = line := by
  simp only [computeKeys, List.map_map]
  show List.map (fun p => p) line = line
  exact List.map_id line

theorem processLine_rgba_perm (mode : SortMode) (dir : SortDirection) (t nt : ℚ)
    (S L G W : ℕ) (line : List Sample) (hL : 1 ≤ L) (hW : 0 < W) :
    ((processLine mode dir t nt S L G W line).map Keyed.rgba).Perm (line.map Sample.rgba) := by
  have hrew : processLine mode dir t nt S L G W line =
      (if nt > 0 then noiseSmoothList nt (computeKeys mode line) else computeKeys mode line).filter
          (fun k => !(isAboveThreshold mode t k)) ++
        sectionWalk W L G S dir
          ((if nt > 0 then noiseSmoothList nt (computeKeys mode line) else computeKeys mode line).filter
            (isAboveThreshold mode t)) := by
    simp only [processLine, partitionLine]
  set smoothed :=
    if nt > 0 then noiseSmoothList nt (computeKeys mode line) else computeKeys mode line with hsm
  rw [hrew]
  have hwalk : (sectionWalk W L G S dir (smoothed.filter (isAboveThreshold mode t))).Perm
      (smoothed.filter (isAboveThreshold mode t)) :=
    sectionWalk_perm W L G S dir _ (by omega) hW
  have h1 : (smoothed.filter (fun k => !(isAboveThreshold mode t k)) ++
      sectionWalk W L G S dir (smoothed.filter (isAboveThreshold mode t))).Perm smoothed := by
    refine (List.Perm.append_left _ hwalk).trans ?_
    exact List.perm_append_comm.trans (List.filter_append_perm _ smoothed)
  refine (h1.map Keyed.rgba).trans ?_
  have hpx : smoothed.map Keyed.px = line := by
    rw [hsm]
    split
    · rw [noiseSmoothList_map_px, computeKeys_map_px]
    · rw [computeKeys_map_px]
  have hcomp : smoothed.map Keyed.rgba = line.map Sample.rgba := by
    have hr : Keyed.rgba = Sample.rgba ∘ Keyed.px := rfl
    rw [hr, ← List.map_map, hpx]
  rw [hcomp]

/-- Claim C6: under a valid configuration (positive section length, positive
image width) the colors written back for a scan line are a permutation of
the colors read from it, for every mode, direction, threshold, noise
threshold, intensity, gap width and sample list, hence for horizontal and
vertical lines alike. -/
theorem c6_theorem (mode : SortMode) (dir : SortDirection) (t nt : ℚ)
    (S L G W : ℕ) (line : List Sample) (hL : 1 ≤ L) (hW : 0 < W) :
    (↑(writeLine (line.map Sample.rgba)
        ((processLine mode dir t nt S L G W line).map Keyed.rgba)) : Multiset RGBA)
      = ↑(line.map Sample.rgba) := by
  have hperm := processLine_rgba_perm mode dir t nt S L G W line hL hW
  have hlen : ((processLine mode dir t nt S L G W line).map Keyed.rgba).length
      = (line.map Sample.rgba).length := hperm.length_eq
  rw [writeLine_eq_of_le _ _ (le_of_eq hlen), hlen, List.drop_length, List.append_nil]
  exact Multiset.coe_eq_coe.mpr hperm

/-- Claim C6, witness: a concrete one-row image of width 4 with intensity
100, section length 2, threshold 100 in brightness mode, whose written
colors form the same multiset as the extracted ones. -/
theorem c6_witness :
    ((1 : ℕ) ≤ 2 ∧ (0 : ℕ) < 4) ∧
    (↑(writeLine ((extractLine (fun i => i % 7) 4 1 true 0).map Sample.rgba)
        ((processLine .brightness .ascending 100 0 100 2 0 4
          (extractLine (fun i => i % 7) 4 1 true 0)).map Keyed.rgba)) : Multiset RGBA)
      = ↑((extractLine (fun i => i % 7) 4 1 true 0).map Sample.rgba) :=
  ⟨⟨by decide, by decide⟩,
    c6_theorem .brightness .ascending 100 0 100 2 0 4
      (extractLine (fun i => i % 7) 4 1 true 0) (by decide) (by decide)⟩

/-! ## Claim C8 -/

theorem sectionWalkAux_single (W L S : ℕ) (dir : SortDirection) (above : List Keyed)
    (fuel : ℕ) (hW : 0 < W) (hWL : W ≤ L) (hfuel : 0 < fuel)
    (hcoord : ∀ k ∈ above, coordOf W k < W) :
    sectionWalkAux W L 0 S dir above fuel 0 = sortSection dir S above := by
  obtain ⟨f, rfl⟩ : ∃ f, fuel = f + 1 := ⟨fuel - 1, by omega⟩
  rw [sectionWalkAux_succ, if_pos hW]
  have hrest : sectionWalkAux W L 0 S dir above f (0 + (L + 0)) = [] := by
    cases f with
    | zero => rfl
    | succ f => rw [sectionWalkAux_succ, if_neg (by omega)]
  rw [hrest, List.append_nil]
  unfold sectionEmit gapPixels
  rw [if_neg (by omega : ¬ 0 + L < W), List.append_nil]
  congr 1
  unfold sectionWindow
  apply List.filter_eq_self.mpr
  intro k hk
  have hco := hcoord k hk
  rw [decide_eq_true_eq]
  refine ⟨Nat.zero_le _, ?_⟩
  rw [Nat.min_eq_right (by omega)]
  exact hco

/-- Claim C8: with strength 100, gap width 0 and a section length that makes
the single window span the whole line, the section sorter output is exactly
one full stable sort of the active subsequence by key in the configured
direction, and that sort is a permutation of the active subsequence. -/
theorem c8_theorem (W L : ℕ) (dir : SortDirection) (above : List Keyed)
    (hW : 0 < W) (hWL : W ≤ L) :
    sectionWalk W L 0 100 dir above = fullStableSort dir above ∧
    (fullStableSort dir above).Perm above := by
  have hcoord : ∀ k ∈ above, coordOf W k < W := fun k _ => Nat.mod_lt _ hW
  constructor
  · unfold sectionWalk
    rw [sectionWalkAux_single W L 100 dir above W hW hWL hW hcoord]
    unfold sortSection fullStableSort sortByKey
    rw [if_neg (by omega)]
  · cases dir <;> exact List.mergeSort_perm above _

/-- Claim C8, witness: three active samples of a line of width 3 with
section length 5, gap 0 and strength 100 come out as the single full
ascending stable sort of the three. -/
theorem c8_witness :
    ((0 : ℕ) < 3 ∧ (3 : ℕ) ≤ 5) ∧
    (sectionWalk 3 5 0 100 .ascending
        [⟨⟨0, 0, 0, 0, 0⟩, 5⟩, ⟨⟨0, 0, 0, 0, 4⟩, 2⟩, ⟨⟨0, 0, 0, 0, 8⟩, 9⟩]
      = fullStableSort .ascending
        [⟨⟨0, 0, 0, 0, 0⟩, 5⟩, ⟨⟨0, 0, 0, 0, 4⟩, 2⟩, ⟨⟨0, 0, 0, 0, 8⟩, 9⟩] ∧
      (fullStableSort .ascending
        [⟨⟨0, 0, 0, 0, 0⟩, 5⟩, ⟨⟨0, 0, 0, 0, 4⟩, 2⟩, ⟨⟨0, 0, 0, 0, 8⟩, 9⟩]).Perm
        [⟨⟨0, 0, 0, 0, 0⟩, 5⟩, ⟨⟨0, 0, 0, 0, 4⟩, 2⟩, ⟨⟨0, 0, 0, 0, 8⟩, 9⟩]) :=
  ⟨⟨by decide, by decide⟩,
    c8_theorem 3 5 .ascending
      [⟨⟨0, 0, 0, 0, 0⟩, 5⟩, ⟨⟨0, 0, 0, 0, 4⟩, 2⟩, ⟨⟨0, 0, 0, 0, 8⟩, 9⟩] (by decide) (by decide)⟩

/-! ## Claim C3 -/

theorem extractLine_getElem?_horizontal (img : ℕ → ℕ) (W H row i : ℕ) (hi : i < W) :
    (extractLine img W H true row)[i]? =
      some ⟨img ((row * W + i) * 4), img ((row * W + i) * 4 + 1),
            img ((row * W + i) * 4 + 2), img ((row * W + i) * 4 + 3), (row * W + i) * 4⟩ := by
  unfold extractLine
  rw [List.getElem?_map, List.getElem?_range (by simpa using hi)]
  rfl

theorem extractLine_getElem?_vertical (img : ℕ → ℕ) (W H col j : ℕ) (hj : j < H) :
    (extractLine img W H false col)[j]? =
      some ⟨img ((j * W + col) * 4), img ((j * W + col) * 4 + 1),
            img ((j * W + col) * 4 + 2), img ((j * W + col) * 4 + 3), (j * W + col) * 4⟩ := by
  unfold extractLine
  rw [List.getElem?_map, List.getElem?_range (by simpa using hj)]
  rfl

theorem coordOf_of_idx (W a i : ℕ) (hi : i < W) (k : Keyed)
    (hk : k.px.idx = (a * W + i) * 4) : coordOf W k = i := by
  rw [coordOf, hk, Nat.mul_div_cancel _ (by omega),
    show a * W + i = i + a * W by ring, Nat.add_mul_mod_self_right]
  exact Nat.mod_eq_of_lt hi

theorem sectionWalkAux_eq_flatten (W L G S : ℕ) (dir : SortDirection) (above : List Keyed) :
    ∀ fuel x, sectionWalkAux W L G S dir above fuel x =
      ((List.range fuel).map (fun n =>
        if x + n * (L + G) < W then sectionEmit W L G S dir above (x + n * (L + G)) else [])).flatten := by
  intro fuel
  induction fuel with
  | zero => intro x; rfl
  | succ fuel ih =>
    intro x
    rw [sectionWalkAux_succ, List.range_succ_eq_map, List.map_cons, List.map_map,
      List.flatten_cons]
    by_cases hxW : x < W
    · rw [show x + 0 * (L + G) = x by ring, if_pos hxW, if_pos hxW]
      congr 1
      rw [ih (x + (L + G))]
      congr 1
      apply List.map_congr_left
      intro n _
      simp only [Function.comp_apply]
      rw [show x + Nat.succ n * (L + G) = x + (L + G) + n * (L + G) by
        rw [Nat.succ_eq_add_one]; ring]
    · rw [show x + 0 * (L + G) = x by ring, if_neg hxW, if_neg hxW, List.nil_append]
      symm
      rw [List.flatten_eq_nil_iff]
      intro l hl
      rw [List.mem_map] at hl
      obtain ⟨n, _, rfl⟩ := hl
      simp only [Function.comp_apply]
      rw [if_neg (by omega)]

/-- Claim C3, counterexample: column 1 of an all-black 2 by 3 image,
scanned vertically with threshold 0 in brightness mode, has 3 active
samples; its first sample has along-line coordinate 0, which lies in
[0, min(0 + 1, 3)) for the window step x = 0 with section length 1, yet
the window the code builds at that step is empty, because the code filters
by pixelX = (idx / 4) % width, which on a vertical line is the constant
column index 1, not the along-line coordinate. -/
theorem c3_counterexample :
    (partitionLine .brightness 0
        (computeKeys .brightness (extractLine (fun _ => 0) 2 3 false 1))).1
      = [⟨⟨0, 0, 0, 0, 4⟩, 0⟩, ⟨⟨0, 0, 0, 0, 12⟩, 0⟩, ⟨⟨0, 0, 0, 0, 20⟩, 0⟩] ∧
    sectionWindow 2 1 [⟨⟨0, 0, 0, 0, 4⟩, 0⟩, ⟨⟨0, 0, 0, 0, 12⟩, 0⟩, ⟨⟨0, 0, 0, 0, 20⟩, 0⟩] 0 = [] ∧
    (⟨⟨0, 0, 0, 0, 4⟩, 0⟩ : Keyed) ∈
      [(⟨⟨0, 0, 0, 0, 4⟩, 0⟩ : Keyed), ⟨⟨0, 0, 0, 0, 12⟩, 0⟩, ⟨⟨0, 0, 0, 0, 20⟩, 0⟩] ∧
    alongCoordV 2 ⟨⟨0, 0, 0, 0, 4⟩, 0⟩ = 0 ∧
    (0 : ℕ) < min (0 + 1) 3 := by
  refine ⟨?_, ?_, ?_, ?_, ?_⟩
  · norm_num [partitionLine, computeKeys, extractLine, computeKey, brightnessKey,
      isAboveThreshold, List.range_succ, List.filter]
  · norm_num [sectionWindow, coordOf, List.filter]
  · norm_num
  · norm_num [alongCoordV]
  · norm_num

/-- Claim C3, amended: the claim holds for horizontal scan lines, for which
the coordinate (idx / 4) % width used by the code equals the along-line
position i of the sample and the line length equals the width: the window
at step x consists of exactly the active samples with along-line coordinate
in [x, min(x + L, W)), and the walk visits the steps x = 0, L+G, 2(L+G), ...
while x < W.  For vertical scan lines, however, the code coordinate of
every sample is the constant column index and the walk bound is the image
width, not the line length (the height). -/
theorem c3_amended_theorem (img : ℕ → ℕ) (W H row col x L G S i j : ℕ)
    (mode : SortMode) (dir : SortDirection) (above : List Keyed) (k : Keyed)
    (hi : i < W) (hj : j < H) (hcol : col < W) :
    ((computeKeys mode (extractLine img W H true row))[i]?).map (coordOf W) = some i ∧
    ((computeKeys mode (extractLine img W H false col))[j]?).map (coordOf W) = some col ∧
    (k ∈ sectionWindow W L above x ↔
      (k ∈ above ∧ x ≤ coordOf W k ∧ coordOf W k < min (x + L) W)) ∧
    sectionWalk W L G S dir above =
      ((List.range W).map (fun n =>
        if n * (L + G) < W then sectionEmit W L G S dir above (n * (L + G)) else [])).flatten := by
  refine ⟨?_, ?_, ?_, ?_⟩
  · unfold computeKeys
    rw [List.getElem?_map, extractLine_getElem?_horizontal img W H row i hi,
      Option.map_some', Option.map_some']
    congr 1
    exact coordOf_of_idx W row i hi _ rfl
  · unfold computeKeys
    rw [List.getElem?_map, extractLine_getElem?_vertical img W H col j hj,
      Option.map_some', Option.map_some']
    congr 1
    exact coordOf_of_idx W j col hcol _ rfl
  · unfold sectionWindow
    rw [List.mem_filter, decide_eq_true_eq]
  · unfold sectionWalk
    rw [sectionWalkAux_eq_flatten W L G S dir above W 0]
    congr 1
    apply List.map_congr_left
    intro n _
    rw [Nat.zero_add]

/-- Claim C3, witness: the amended characterisation at a 2 by 3 image,
horizontal row 1 position 1, vertical column 1 position 2, window step 0
with section length 1, gap 1, a one sample active list. -/
theorem c3_witness :
    ((1 : ℕ) < 2 ∧ (2 : ℕ) < 3 ∧ (1 : ℕ) < 2) ∧
    (((computeKeys .brightness (extractLine (fun _ => 0) 2 3 true 1))[1]?).map (coordOf 2)
        = some 1 ∧
      ((computeKeys .brightness (extractLine (fun _ => 0) 2 3 false 1))[2]?).map (coordOf 2)
        = some 1 ∧
      ((⟨⟨0, 0, 0, 0, 4⟩, 0⟩ : Keyed) ∈
          sectionWindow 2 1 [⟨⟨0, 0, 0, 0, 4⟩, 0⟩] 0 ↔
        ((⟨⟨0, 0, 0, 0, 4⟩, 0⟩ : Keyed) ∈ [(⟨⟨0, 0, 0, 0, 4⟩, 0⟩ : Keyed)] ∧
          0 ≤ coordOf 2 ⟨⟨0, 0, 0, 0, 4⟩, 0⟩ ∧
          coordOf 2 ⟨⟨0, 0, 0, 0, 4⟩, 0⟩ < min (0 + 1) 2)) ∧
      sectionWalk 2 1 1 100 .ascending [⟨⟨0, 0, 0, 0, 4⟩, 0⟩] =
        ((List.range 2).map (fun n =>
          if n * (1 + 1) < 2 then sectionEmit 2 1 1 100 .ascending [⟨⟨0, 0, 0, 0, 4⟩, 0⟩] (n * (1 + 1))
          else [])).flatten) :=
  ⟨⟨by decide, by decide, by decide⟩,
    c3_amended_theorem (fun _ => 0) 2 3 1 1 0 1 1 100 1 2 .brightness .ascending
      [⟨⟨0, 0, 0, 0, 4⟩, 0⟩] ⟨⟨0, 0, 0, 0, 4⟩, 0⟩ (by decide) (by decide) (by decide)⟩
